import Mathlib

/-!
MinecraftGPTbot: the request pipeline of `index.js`.

A shallow embedding of `src/index.js`: the memory store (`loadMemory`,
`saveMemory`, `appendMemory`, `getMemoryString`), the character loader, the
safety gate `isCodeSafe`, the request function `askBot` and the chat handler.

Conventions of the embedding.

* A JavaScript value is a `JSValue`; a text is a Lean `String`. The program
  does no arithmetic: a number is only tested for truth, turned into text and
  written back by `JSON.stringify`, and `JsNumber` keeps what these need.
* Library functions whose behaviour is fixed by the language
  (`String.prototype.trim`, `String.prototype.replace`, `String`, `Array.prototype.join`)
  are written out, a `TypeError` they throw included.
  `String.prototype.toLowerCase` depends on the Unicode case tables and is taken
  as a parameter `lower`; `asciiLower` is the instance used for concrete
  evaluation.
* A text that the program hands to `JSON.parse` is represented by what
  `JSON.parse` makes of it (`JsonText`). What `JSON.parse` makes of the text
  `JSON.stringify` writes for a value is `Json.reparse` of the value.
* `log` only prints and is left out.
-/

namespace MinecraftGPTbot

/-! ## Values -/

/-- A number as `JSON.parse` reads one. A finite number other than negative
zero is represented by the text `String(n)` gives for it, which determines the
number (zero is `"0"`, one and a half is `"1.5"`, ten to the 21 is `"1e+21"`).
The other values are negative zero, read from `-0`, and the two infinities, read
from a literal beyond the range of a double such as `1e400`. -/
inductive JsNumber where
  | finite (text : String)
  | negZero
  | infinity (negative : Bool)
  deriving DecidableEq

/-- The conversion `String(n)` of a number. -/
def JsNumber.toText : JsNumber → String
  | .finite text => text
  | .negZero => "0"
  | .infinity negative => if negative then "-Infinity" else "Infinity"

/-- A value that `JSON.parse` can produce. An object is the list of its own
properties in the order the object keeps them. -/
inductive Json where
  | null
  | bool (b : Bool)
  | num (n : JsNumber)
  | str (s : String)
  | arr (xs : List Json)
  | obj (kvs : List (String × Json))

/-- A JavaScript value, as far as the program meets one: `undefined` (`none`) or
a value read by `JSON.parse`. -/
abbrev JSValue := Option Json

/-- Truthiness of a value, as tested by `!v` and `if (v)`. -/
def truthy : JSValue → Bool
  | none => false
  | some .null => false
  | some (.bool b) => b
  | some (.num (.finite text)) => text != "0"
  | some (.num .negZero) => false
  | some (.num (.infinity _)) => true
  | some (.str s) => s != ""
  | some (.arr _) => true
  | some (.obj _) => true

/-- The test `typeof v === 'string'`. -/
def isString : JSValue → Bool
  | some (.str _) => true
  | _ => false

/-! ## Text helpers -/

/-- The method `s.includes(t)`: `t` occurs in `s` as a contiguous run. -/
def includes (s t : String) : Bool :=
  decide (t.data <:+: s.data)

/-- Lower-casing of the ASCII letters, other characters unchanged. -/
def asciiLower (s : String) : String :=
  String.mk (s.data.map Char.toLower)

/-- White space and line terminators, the characters `String.prototype.trim`
strips: TAB, LF, VT, FF, CR, SP, NBSP, the Unicode space separators, LS, PS and
the byte order mark. -/
def isTrimChar (c : Char) : Bool :=
  let n := c.toNat
  (9 ≤ n && n ≤ 13) || n == 32 || n == 160 || n == 5760 ||
  (8192 ≤ n && n ≤ 8202) || n == 8232 || n == 8233 || n == 8239 ||
  n == 8287 || n == 12288 || n == 65279

/-- The method `s.trim()`. -/
def trim (s : String) : String :=
  String.mk ((s.data.dropWhile isTrimChar).reverse.dropWhile isTrimChar).reverse

/-- Whether an object has an own property of the name `k`. -/
def hasKey (k : String) (kvs : List (String × Json)) : Bool :=
  kvs.any fun kv => kv.1 == k

mutual
/-- The conversion `String(v)` of a value read by `JSON.parse`; `none` when it
throws a `TypeError`: an object with an own property `toString` has no callable
`toString` and no `valueOf` that gives a primitive. -/
def Json.toText : Json → Option String
  | .null => some "null"
  | .bool b => some (if b then "true" else "false")
  | .num n => some n.toText
  | .str s => some s
  | .arr xs => joinWith "," xs
  | .obj kvs => if hasKey "toString" kvs then none else some "[object Object]"
/-- The method `xs.join(sep)`: a `null` element gives the empty text; `none`
when the conversion of an element throws a `TypeError`. -/
def joinWith (sep : String) : List Json → Option String
  | [] => some ""
  | [x] => joinElem x
  | x :: y :: rest =>
    match joinElem x, joinWith sep (y :: rest) with
    | some a, some b => some (a ++ sep ++ b)
    | _, _ => none
/-- One element of a `join`. -/
def joinElem : Json → Option String
  | .null => some ""
  | .bool b => some (if b then "true" else "false")
  | .num n => some n.toText
  | .str s => some s
  | .arr xs => joinWith "," xs
  | .obj kvs => if hasKey "toString" kvs then none else some "[object Object]"
end

/-- The conversion `String(v)`; `none` when it throws a `TypeError`. -/
def jsString : JSValue → Option String
  | none => some "undefined"
  | some v => v.toText

mutual
/-- What `JSON.parse` reads from the text `JSON.stringify` writes for a value:
the value itself, except that an infinity is written as `null` and negative
zero as `0`. -/
def Json.reparse : Json → Json
  | .null => .null
  | .bool b => .bool b
  | .num (.finite text) => .num (.finite text)
  | .num .negZero => .num (.finite "0")
  | .num (.infinity _) => .null
  | .str s => .str s
  | .arr xs => .arr (reparseList xs)
  | .obj kvs => .obj (reparseFields kvs)
/-- The elements of an array, each as `Json.reparse` gives it. -/
def reparseList : List Json → List Json
  | [] => []
  | x :: xs => x.reparse :: reparseList xs
/-- The properties of an object, each value as `Json.reparse` gives it. -/
def reparseFields : List (String × Json) → List (String × Json)
  | [] => []
  | (k, v) :: kvs => (k, v.reparse) :: reparseFields kvs
end

mutual
/-- Whether a value holds no infinity and no negative zero, so that
`JSON.stringify` writes it out exactly. -/
def Json.exact : Json → Bool
  | .null => true
  | .bool _ => true
  | .num (.finite _) => true
  | .num .negZero => false
  | .num (.infinity _) => false
  | .str _ => true
  | .arr xs => exactList xs
  | .obj kvs => exactFields kvs
/-- Whether every element of an array is exact. -/
def exactList : List Json → Bool
  | [] => true
  | x :: xs => x.exact && exactList xs
/-- Whether every property value of an object is exact. -/
def exactFields : List (String × Json) → Bool
  | [] => true
  | (_, v) :: kvs => v.exact && exactFields kvs
end

/-- Splits a text at the first occurrence of `pat`, as `indexOf` finds it: the
part before the occurrence and the part after it. -/
def splitFirst (pat : List Char) : List Char → Option (List Char × List Char)
  | [] => if pat = [] then some ([], []) else none
  | c :: cs =>
    if pat.isPrefixOf (c :: cs) then some ([], (c :: cs).drop pat.length)
    else
      match splitFirst pat cs with
      | some (before, after) => some (c :: before, after)
      | none => none

/-- The replacement text of `String.prototype.replace` for a text pattern
(`GetSubstitution` without captures): `$$` stands for a dollar sign, `$&` for
the matched text, a dollar sign with a grave accent for the part before the
match, a dollar sign with an apostrophe for the part after it; any other
character stands for itself. -/
def getSubstitution (matched before after : List Char) : List Char → List Char
  | [] => []
  | [c] => [c]
  | c :: d :: rest =>
    if c = '$' then
      if d = '$' then '$' :: getSubstitution matched before after rest
      else if d = '&' then matched ++ getSubstitution matched before after rest
      else if d = Char.ofNat 96 then before ++ getSubstitution matched before after rest
      else if d = Char.ofNat 39 then after ++ getSubstitution matched before after rest
      else c :: getSubstitution matched before after (d :: rest)
    else c :: getSubstitution matched before after (d :: rest)

/-- The method `s.replace(pat, r)` for texts `pat` and `r`: the first occurrence
of `pat` is replaced. -/
def replace (s pat r : String) : String :=
  match splitFirst pat.data s.data with
  | none => s
  | some (before, after) =>
    String.mk (before ++ getSubstitution pat.data before after r.data ++ after)

/-! ## Safety gate -/

/-- The constant `forbidden` of `isCodeSafe`. -/
def forbidden : List String :=
  ["fs.", "path.", "child_process", "process.exit", "eval(", "require(",
   "http.", "https.", "spawn(", "exec(", "writefile", "readfile", "unlink", "rmdir", "mkdir",
   "process.env", "process.", "import(", "await import"]

/-- The function `isCodeSafe(code)`; `lower` is `String.prototype.toLowerCase`. -/
def isCodeSafe (lower : String → String) (code : JSValue) : Bool :=
  if !truthy code || !isString code then false
  else
    match code with
    | some (.str s) =>
      let lowered := lower s
      !(forbidden.any fun bad => includes lowered bad)
    | _ => false

/-! ## Memory store -/

/-- A text handed to `JSON.parse`, by what `JSON.parse` makes of it: a syntax
error, or the value read. -/
inductive JsonText where
  | invalid
  | value (v : Json)

/-- The text of the memory file as `loadMemory` tests it: empty or white space
only, or a text for `JSON.parse`. -/
inductive FileText where
  | blank
  | content (t : JsonText)

/-- The memory file `botMemory.json`: absent (`none`) or present with its text. -/
abbrev MemFile := Option FileText

/-- The function `loadMemory()`: the entries read and the file as it is left.
`renameOk` tells whether `fs.renameSync` of a corrupt file succeeds; the
renamed file is no longer at the path of the memory file. -/
def loadMemory (renameOk : Bool) (file : MemFile) : List Json × MemFile :=
  match file with
  | none => ([], file)
  | some raw =>
    match raw with
    | .blank => ([], file)
    | .content .invalid => ([], if renameOk then none else file)
    | .content (.value parsed) =>
      match parsed with
      | .arr xs => (xs, file)
      | _ => ([], file)

/-- The function `saveMemory(memoryArray)`; `writeOk` tells whether
`fs.writeFileSync` succeeds. The text written is `JSON.stringify` of the array,
which `JSON.parse` reads as the array of the elements `Json.reparse` gives. -/
def saveMemory (writeOk : Bool) (memoryArray : List Json) (file : MemFile) : MemFile :=
  if writeOk then some (.content (.value (.arr (reparseList memoryArray)))) else file

/-- The errors a request ends with, by the statement that throws. -/
inductive Failure where
  /-- The error 'OPENAI_API_KEY не задан в окружении. Проверьте .env файл.' -/
  | configMissing
  /-- The error 'Ответ не является корректным JSON. ...' of the `catch` around `JSON.parse`. -/
  | malformedResponse
  /-- The error 'В ответе нет поля "code"'. -/
  | missingCode
  /-- The error 'Код содержит запрещённые конструкции — выполнение отменено.' -/
  | unsafeCode
  /-- A `TypeError` of the runtime: a property read on `null`, a call of a
  method the value does not have, or a conversion to text that fails. -/
  | typeError
  /-- An error of the call `openai.responses.create`, or of reading the text
  of its result. -/
  | clientError
  /-- An error thrown by the evaluated code. -/
  | execution
  deriving DecidableEq

/-- The constant `MAX_MEM` of `appendMemory`. -/
def MAX_MEM : Nat := 200

/-- The function `appendMemory(newMemory)`: the file as the call leaves it, or
the `TypeError` that `String(newMemory)` throws, which leaves the file as it is. -/
def appendMemory (renameOk writeOk : Bool) (newMemory : JSValue) (file : MemFile) :
    Except Failure MemFile :=
  if !truthy newMemory then .ok file
  else
    match jsString newMemory with
    | none => .error .typeError
    | some text =>
      if trim text == "" then .ok file
      else
        let (mem, file1) := loadMemory renameOk file
        let mem := mem ++ [Json.str (trim text)]
        let mem := if mem.length > MAX_MEM then mem.drop (mem.length - MAX_MEM) else mem
        .ok (saveMemory writeOk mem file1)

/-- The function `getMemoryString()`: the text, or the `TypeError` that `join`
throws, with the file as `loadMemory` leaves it. -/
def getMemoryString (renameOk : Bool) (file : MemFile) : Except Failure String × MemFile :=
  let (mem, file1) := loadMemory renameOk file
  if mem.length == 0 then (.ok "", file1)
  else
    match joinWith "\n" mem with
    | some text => (.ok text, file1)
    | none => (.error .typeError, file1)

/-- The function `getCharacterDescription()`; the argument is the text of
`character.txt`, `none` when the file does not exist. -/
def getCharacterDescription (characterFile : Option String) : String :=
  match characterFile with
  | none => "Описание характера отсутствует."
  | some content =>
    let raw := trim content
    if raw != "" then raw else "Описание характера пусто."

/-- A sequence of calls `appendMemory(x)`, one for each text, every write
succeeding; a call that throws ends the sequence. -/
def appendAll (renameOk : Bool) (texts : List String) (file : MemFile) :
    Except Failure MemFile :=
  texts.foldlM (fun f x => appendMemory renameOk true (some (.str x)) f) file

/-! ## Request pipeline -/

/-- The prompt `askBot` builds from the template: three chained `replace` calls. -/
def buildPrompt (template characterText memoryText message : String) : String :=
  replace
    (replace
      (replace template "{{CHARACTER}}" characterText)
      "{{MEMORY}}" (if memoryText != "" then memoryText else "Память пуста."))
    "@@@" message

/-- The three markers of the prompt template. -/
inductive Marker where
  | character
  | memory
  | message
  deriving DecidableEq

/-- The text of a marker in `prompt.txt`. -/
def Marker.text : Marker → String
  | .character => "{{CHARACTER}}"
  | .memory => "{{MEMORY}}"
  | .message => "@@@"

/-- A piece of a template: literal text, or a marker. -/
inductive Piece where
  | lit (s : String)
  | mark (k : Marker)
  deriving DecidableEq

/-- A template written out, each marker rendered by `f`. -/
def render (f : Marker → String) : List Piece → String
  | [] => ""
  | .lit s :: ps => s ++ render f ps
  | .mark k :: ps => f k ++ render f ps

/-- The text of a template: every marker stands as its own text. -/
def templateText (ps : List Piece) : String :=
  render Marker.text ps

/-- The template with its markers replaced by the character text, the memory
text and the message, each inserted as it is. -/
def fillTemplate (ps : List Piece) (c m u : String) : String :=
  render (fun k => match k with
    | .character => c
    | .memory => m
    | .message => u) ps

/-- The number of places of a text at which `pat` begins. -/
def occurrencesIn (pat : List Char) : List Char → Nat
  | [] => if pat.isPrefixOf [] then 1 else 0
  | c :: cs => (if pat.isPrefixOf (c :: cs) then 1 else 0) + occurrencesIn pat cs

/-- The number of occurrences of `pat` in `s`. -/
def occurrences (pat s : String) : Nat :=
  occurrencesIn pat.data s.data

/-- A template with the three markers, once each. -/
def sampleTemplate : List Piece :=
  [.mark .character, .lit "|", .mark .memory, .lit "|", .mark .message]

/-- The stages of a request, recorded in the order the program reaches them. -/
inductive Event where
  /-- The call `openai.responses.create` with the prompt. -/
  | modelCall (prompt : String)
  /-- The call `JSON.parse(text)`. -/
  | parse
  /-- The call `isCodeSafe(parsed.code)`: its argument and its result. -/
  | safetyCheck (code : JSValue) (safe : Bool)
  /-- The call `appendMemory(parsed.memory)`: its argument, and the memory file
  as the call leaves it or the error it throws. -/
  | memoryUpdate (newMemory : JSValue) (result : Except Failure MemFile)
  /-- The call `eval(code)`: its argument, and the memory file as it is when
  the call begins. -/
  | execute (code : String) (file : MemFile)
  /-- The call `bot.chat` that reports an error. -/
  | report (err : Failure)

/-- The last binding of a key in an object. -/
def lookupKey (k : String) (kvs : List (String × Json)) : JSValue :=
  (kvs.reverse.find? fun kv => kv.1 == k).map Prod.snd

/-- The property read `v.code` or `v.memory` on a value read by `JSON.parse`:
a `TypeError` on `null`, the binding on an object, and `undefined` on any other
value, none of which has a property of these names. -/
def getProp (v : Json) (k : String) : Except Failure JSValue :=
  match v with
  | .null => .error .typeError
  | .obj kvs => .ok (lookupKey k kvs)
  | _ => .ok none

/-- How a call of `eval` ends: the code returns, it throws a value whose
`message` the handler can read, or it throws `null` or `undefined`, on which the
read of `err.message` in the `catch` block throws in turn and nothing is
reported. -/
inductive EvalEnd where
  | returned
  | threw
  | threwNullish
  deriving DecidableEq

/-- What surrounds the program. -/
structure Env where
  /-- The method `String.prototype.toLowerCase`. -/
  lower : String → String
  /-- Whether `fs.renameSync` of the memory file succeeds. -/
  renameOk : Bool
  /-- Whether `fs.writeFileSync` of the memory file succeeds. -/
  writeOk : Bool
  /-- The text of `character.txt`, `none` when the file does not exist. -/
  characterFile : Option String
  /-- The text of `prompt.txt`. -/
  PROMPT_TEMPLATE : String
  /-- The environment variable `OPENAI_API_KEY`. -/
  OPENAI_API_KEY : Option String
  /-- The model: the response text, trimmed, for a prompt; `none` when the call
  of the client fails. -/
  model : String → Option JsonText
  /-- The call `eval(code)` in the chat handler: the memory file as the
  evaluated code leaves it, and how the call ends. -/
  evalCode : String → MemFile → MemFile × EvalEnd
  /-- The name `bot.username`. -/
  botUsername : String
  /-- The constant `PLAYERNAME`. -/
  PLAYERNAME : String

/-- The state a request runs in: the memory file and the stages reached so far. -/
structure Run where
  file : MemFile
  trace : List Event

/-- The function `askBot(message)`: the value returned or the error thrown, and
the state the request leaves. -/
def askBot (env : Env) (message : String) (st : Run) : Except Failure JSValue × Run :=
  match getMemoryString env.renameOk st.file with
  | (.error e, file1) => (.error e, { file := file1, trace := st.trace })
  | (.ok memoryText, file1) =>
    let characterText := getCharacterDescription env.characterFile
    let prompt := buildPrompt env.PROMPT_TEMPLATE characterText memoryText message
    let st1 : Run := { file := file1, trace := st.trace }
    if env.OPENAI_API_KEY.getD "" == "" then (.error .configMissing, st1)
    else
      match env.model prompt with
      | none => (.error .clientError, { st1 with trace := st1.trace ++ [.modelCall prompt] })
      | some text =>
        let st2 : Run := { st1 with trace := st1.trace ++ [.modelCall prompt, .parse] }
        match text with
        | .invalid => (.error .malformedResponse, st2)
        | .value parsed =>
          match getProp parsed "code" with
          | .error e => (.error e, st2)
          | .ok code =>
            if !truthy code then (.error .missingCode, st2)
            else
              let safe := isCodeSafe env.lower code
              let st3 : Run := { st2 with trace := st2.trace ++ [.safetyCheck code safe] }
              if !safe then (.error .unsafeCode, st3)
              else
                match getProp parsed "memory" with
                | .error e => (.error e, st3)
                | .ok memory =>
                  if truthy memory then
                    let result := appendMemory env.renameOk env.writeOk memory st3.file
                    let st4 : Run :=
                      { st3 with trace := st3.trace ++ [.memoryUpdate memory result] }
                    match result with
                    | .ok file2 => (.ok code, { st4 with file := file2 })
                    | .error e => (.error e, st4)
                  else (.ok code, st3)

/-- The prompt `askBot` sends for a message when the memory file is `file`; the
empty text when `getMemoryString` throws and no prompt is built. -/
def promptFor (env : Env) (message : String) (file : MemFile) : String :=
  match (getMemoryString env.renameOk file).1 with
  | .ok memoryText =>
    buildPrompt env.PROMPT_TEMPLATE (getCharacterDescription env.characterFile)
      memoryText message
  | .error _ => ""

/-- The handler of `bot.on('chat')` for one chat event. -/
def onChat (env : Env) (username message : String) (st : Run) : Run :=
  if username == env.botUsername then st
  else if username != env.PLAYERNAME then st
  else
    match askBot env message st with
    | (.ok code, st1) =>
      match code with
      | some (.str c) =>
        let (file2, ending) := env.evalCode c st1.file
        let st2 : Run := { file := file2, trace := st1.trace ++ [.execute c st1.file] }
        match ending with
        | .threw => { st2 with trace := st2.trace ++ [.report .execution] }
        | _ => st2
      | _ => { st1 with trace := st1.trace ++ [.report .typeError] }
    | (.error err, st1) => { st1 with trace := st1.trace ++ [.report err] }

/-- The place of an event in the order in which the program runs its stages:
model call, parse, safety check, memory update, execute, error report. -/
def Event.stage : Event → Nat
  | .modelCall _ => 0
  | .parse => 1
  | .safetyCheck _ _ => 2
  | .memoryUpdate _ _ => 3
  | .execute _ _ => 4
  | .report _ => 5

/-- An environment for concrete runs: the model answers every prompt with `reply`. -/
def sampleEnv (reply : JsonText) : Env where
  lower := asciiLower
  renameOk := true
  writeOk := true
  characterFile := some "friendly"
  PROMPT_TEMPLATE := "{{CHARACTER}}|{{MEMORY}}|@@@"
  OPENAI_API_KEY := some "key"
  model := fun _ => some reply
  evalCode := fun _ file => (file, .returned)
  botUsername := "Bot"
  PLAYERNAME := "Player"

/-! ## Safety gate: theorems -/

theorem isCodeSafe_str (lower : String → String) (s : String) :
    isCodeSafe lower (some (.str s)) =
      (s != "" && !(forbidden.any fun bad => includes (lower s) bad)) := by
  by_cases hs : s = "" <;> simp [isCodeSafe, truthy, isString, hs]

/-- C1: a text whose lower-cased form contains an entry of the forbidden list is
rejected by `isCodeSafe`. -/
theorem isCodeSafe_rejects_forbidden (lower : String → String) (code d : String)
    (hd : d ∈ forbidden) (hin : includes (lower code) d = true) :
    isCodeSafe lower (some (.str code)) = false := by
  rw [isCodeSafe_str]
  have : (forbidden.any fun bad => includes (lower code) bad) = true :=
    List.any_eq_true.mpr ⟨d, hd, hin⟩
  simp [this]

theorem isCodeSafe_rejects_forbidden_witness :
    isCodeSafe asciiLower (some (.str "Require('FS')")) = false :=
  isCodeSafe_rejects_forbidden asciiLower "Require('FS')" "require(" (by decide) (by decide)

/-- C2, as stated, fails at the empty text: it contains no forbidden entry and
is rejected all the same. -/
theorem isCodeSafe_empty_text_rejected :
    (∀ d ∈ forbidden, includes (asciiLower "") d = false) ∧
      isCodeSafe asciiLower (some (.str "")) = false := by
  decide

/-- C2, amended: `isCodeSafe` accepts exactly the non-empty texts whose
lower-cased form contains no entry of the forbidden list; it rejects a value
that is not a text, the empty text, and a text with a forbidden entry. -/
theorem isCodeSafe_true_iff (lower : String → String) (code : JSValue) :
    isCodeSafe lower code = true ↔
      ∃ s, code = some (.str s) ∧ s ≠ "" ∧
        ∀ d ∈ forbidden, includes (lower s) d = false := by
  constructor
  · intro h
    match code, h with
    | some (.str s), h =>
      rw [isCodeSafe_str] at h
      simp only [Bool.and_eq_true, bne_iff_ne, ne_eq, Bool.not_eq_true', List.any_eq_false] at h
      exact ⟨s, rfl, h.1, fun d hd => by simpa using h.2 d hd⟩
    | none, h => simp [isCodeSafe, truthy] at h
    | some .null, h => simp [isCodeSafe, truthy] at h
    | some (.bool b), h => simp [isCodeSafe, isString] at h
    | some (.num n), h => simp [isCodeSafe, isString] at h
    | some (.arr xs), h => simp [isCodeSafe, isString] at h
    | some (.obj kvs), h => simp [isCodeSafe, isString] at h
  · rintro ⟨s, rfl, hs, hd⟩
    rw [isCodeSafe_str]
    simp only [Bool.and_eq_true, bne_iff_ne, ne_eq, Bool.not_eq_true', List.any_eq_false]
    exact ⟨hs, fun d hd2 => by simpa using hd d hd2⟩

/-! ## Memory store: theorems -/

theorem loadMemory_after_load (r r1 r2 : Bool) (file : MemFile) :
    (loadMemory r (loadMemory r1 file).2).1 = (loadMemory r2 file).1 := by
  unfold loadMemory
  cases file with
  | none => rfl
  | some raw =>
    cases raw with
    | blank => rfl
    | content t =>
      cases t with
      | invalid => cases r1 <;> rfl
      | value v => cases v <;> rfl

theorem getMemoryString_file (r : Bool) (file : MemFile) :
    (getMemoryString r file).2 = (loadMemory r file).2 := by
  unfold getMemoryString
  split
  rename_i h
  rw [h]
  split
  · rfl
  · split <;> rfl

theorem loadMemory_entries_eq (r r2 : Bool) (file : MemFile) :
    (loadMemory r file).1 = (loadMemory r2 file).1 := by
  have h := loadMemory_after_load r r r2 file
  have h2 := loadMemory_after_load r r r file
  rw [← h, h2]

theorem reparseList_eq_map (xs : List Json) : reparseList xs = xs.map Json.reparse := by
  induction xs with
  | nil => rfl
  | cons x xs ih => simp only [reparseList, List.map_cons, ih]

mutual
theorem Json.reparse_exact : ∀ v : Json, v.exact = true → v.reparse = v
  | .null, _ => rfl
  | .bool _, _ => rfl
  | .num (.finite _), _ => rfl
  | .num .negZero, h => by simp [Json.exact] at h
  | .num (.infinity _), h => by simp [Json.exact] at h
  | .str _, _ => rfl
  | .arr xs, h => by
    simp only [Json.exact] at h
    simp only [Json.reparse, reparseList_exact xs h]
  | .obj kvs, h => by
    simp only [Json.exact] at h
    simp only [Json.reparse, reparseFields_exact kvs h]
theorem reparseList_exact : ∀ xs : List Json, exactList xs = true → reparseList xs = xs
  | [], _ => rfl
  | x :: xs, h => by
    simp only [exactList, Bool.and_eq_true] at h
    simp only [reparseList, Json.reparse_exact x h.1, reparseList_exact xs h.2]
theorem reparseFields_exact :
    ∀ kvs : List (String × Json), exactFields kvs = true → reparseFields kvs = kvs
  | [], _ => rfl
  | (k, v) :: kvs, h => by
    simp only [exactFields, Bool.and_eq_true] at h
    simp only [reparseFields, Json.reparse_exact v h.1, reparseFields_exact kvs h.2]
end

theorem loadMemory_saved (r : Bool) (mem : List Json) (file : MemFile) :
    (loadMemory r (saveMemory true mem file)).1 = mem.map Json.reparse := by
  rw [← reparseList_eq_map]
  rfl

theorem trim_ne_empty {x : String} (hx : trim x ≠ "") : x ≠ "" := by
  rintro rfl
  exact hx rfl

/-- The entries kept by the cap: the last `MAX_MEM` of a list. -/
theorem cap_eq_drop (mem : List Json) :
    (if mem.length > MAX_MEM then mem.drop (mem.length - MAX_MEM) else mem)
      = mem.drop (mem.length - MAX_MEM) := by
  split
  · rfl
  · rename_i h
    have : mem.length - MAX_MEM = 0 := by omega
    rw [this, List.drop_zero]

theorem appendMemory_text (r : Bool) (x : String) (file : MemFile) (hx : trim x ≠ "") :
    appendMemory r true (some (.str x)) file =
      .ok (saveMemory true
        (((loadMemory r file).1 ++ [Json.str (trim x)]).drop
          (((loadMemory r file).1 ++ [Json.str (trim x)]).length - MAX_MEM))
        (loadMemory r file).2) := by
  have hx2 := trim_ne_empty hx
  have ht : truthy (some (.str x)) = true := by simp [truthy, hx2]
  have hb : (trim x == "") = false := by simpa using hx
  unfold appendMemory
  simp only [ht, Bool.not_true, Bool.false_eq_true, if_false, jsString, Json.toText, hb]
  rw [cap_eq_drop]

theorem appendMemory_text_entries (r r2 : Bool) (x : String) (file f : MemFile)
    (hx : trim x ≠ "") (hf : appendMemory r true (some (.str x)) file = .ok f) :
    (loadMemory r2 f).1 =
      ((loadMemory r file).1.map Json.reparse ++ [Json.str (trim x)]).drop
        (((loadMemory r file).1.map Json.reparse ++ [Json.str (trim x)]).length - MAX_MEM) := by
  rw [appendMemory_text r x file hx] at hf
  simp only [Except.ok.injEq] at hf
  rw [← hf, loadMemory_saved, List.map_drop, List.map_append]
  simp only [List.length_append, List.length_map, List.map_cons, List.map_nil,
    List.length_singleton, Json.reparse]

theorem drop_cap_append (l : List Json) (y : Json) :
    (l.drop (l.length - MAX_MEM) ++ [y]).drop
        ((l.drop (l.length - MAX_MEM) ++ [y]).length - MAX_MEM)
      = (l ++ [y]).drop ((l ++ [y]).length - MAX_MEM) := by
  have hM : MAX_MEM = 200 := rfl
  simp only [List.length_append, List.length_drop, List.length_singleton]
  by_cases h : l.length ≤ MAX_MEM
  · have h0 : l.length - MAX_MEM = 0 := by omega
    simp [h0]
  · have h1 : l.length - (l.length - MAX_MEM) + 1 - MAX_MEM = 1 := by omega
    have h2 : l.length + 1 - MAX_MEM = (l.length - MAX_MEM) + 1 := by omega
    rw [h1, h2]
    rw [List.drop_append_of_le_length (by rw [List.length_drop]; omega),
      List.drop_append_of_le_length (by omega), List.drop_drop]

theorem map_reparse_texts (texts : List String) :
    (texts.map fun x => Json.str (trim x)).map Json.reparse
      = texts.map fun x => Json.str (trim x) := by
  induction texts with
  | nil => rfl
  | cons x xs ih =>
    simp only [List.map_cons, Json.reparse, List.cons.injEq, true_and]
    exact ih

theorem appendAll_snoc (r : Bool) (texts : List String) (x : String) (file : MemFile) :
    appendAll r (texts ++ [x]) file
      = (appendAll r texts file).bind fun f => appendMemory r true (some (.str x)) f := by
  simp only [appendAll, List.foldlM_append, List.foldlM_cons, List.foldlM_nil]
  cases List.foldlM (fun f x => appendMemory r true (some (.str x)) f) file texts with
  | error e => rfl
  | ok f =>
    show (appendMemory r true (some (.str x)) f >>= pure) = _
    rw [bind_pure]
    rfl

theorem appendAll_entries (r r2 : Bool) (texts : List String) (file : MemFile)
    (hx : ∀ x ∈ texts, trim x ≠ "") :
    ∃ f prev, appendAll r texts file = .ok f ∧
      prev.length = (loadMemory r file).1.length ∧
      (texts = [] → (loadMemory r2 f).1 = prev) ∧
      (texts ≠ [] → (loadMemory r2 f).1 =
        (prev ++ texts.map fun x => Json.str (trim x)).drop
          ((prev ++ texts.map fun x => Json.str (trim x)).length - MAX_MEM)) := by
  induction texts using List.reverseRecOn with
  | nil =>
    exact ⟨file, (loadMemory r file).1, rfl, rfl,
      fun _ => loadMemory_entries_eq r2 r file, fun h => absurd rfl h⟩
  | append_singleton texts x ih =>
    have hxx : trim x ≠ "" := hx x (by simp)
    obtain ⟨f, prev, hf, hlen, hnil, hcons⟩ := ih (fun y hy => hx y (by simp [hy]))
    obtain ⟨g, hg⟩ : ∃ g, appendMemory r true (some (.str x)) f = .ok g :=
      ⟨_, appendMemory_text r x f hxx⟩
    have hent := appendMemory_text_entries r r2 x f g hxx hg
    refine ⟨g, prev.map Json.reparse, ?_, by rw [List.length_map, hlen], by simp, fun _ => ?_⟩
    · rw [appendAll_snoc, hf]
      exact hg
    · rw [hent, loadMemory_entries_eq r r2 f]
      by_cases ht : texts = []
      · subst ht
        rw [hnil rfl]
        rfl
      · have hL : (loadMemory r2 f).1.map Json.reparse =
            (prev.map Json.reparse ++ texts.map fun x => Json.str (trim x)).drop
              ((prev.map Json.reparse ++ texts.map fun x => Json.str (trim x)).length
                - MAX_MEM) := by
          rw [hcons ht, List.map_drop, List.map_append, map_reparse_texts]
          simp only [List.length_append, List.length_map]
        rw [hL, List.map_append, ← List.append_assoc]
        exact drop_cap_append _ _

/-- C5: after more than 200 calls of `appendMemory` with non-blank texts, every
write succeeding, no call throws and `loadMemory` reads the trimmed texts of the
last 200 calls, in the order of the calls, whatever the memory file held
before. -/
theorem appendAll_keeps_last_200 (r r2 : Bool) (texts : List String) (file : MemFile)
    (hN : 200 < texts.length) (hx : ∀ x ∈ texts, trim x ≠ "") :
    ∃ f, appendAll r texts file = .ok f ∧
      (loadMemory r2 f).1 =
        (texts.map fun x => Json.str (trim x)).drop (texts.length - 200) := by
  have hne : texts ≠ [] := by
    rintro rfl
    simp at hN
  obtain ⟨f, prev, hf, -, -, hcons⟩ := appendAll_entries r r2 texts file hx
  refine ⟨f, hf, ?_⟩
  rw [hcons hne]
  have hlen : (prev ++ texts.map fun x => Json.str (trim x)).length - MAX_MEM
      = prev.length + (texts.length - 200) := by
    simp only [List.length_append, List.length_map, MAX_MEM]
    omega
  rw [hlen, List.drop_append]

theorem appendAll_keeps_last_200_witness :
    ∃ f, appendAll true (List.replicate 201 "a") none = .ok f ∧
      (loadMemory true f).1 =
        ((List.replicate 201 "a").map fun x => Json.str (trim x)).drop
          ((List.replicate 201 "a").length - 200) :=
  appendAll_keeps_last_200 true true (List.replicate 201 "a") none
    (by rw [List.length_replicate]; decide)
    (by
      intro x hx
      rw [List.eq_of_mem_replicate hx]
      decide)

/-- C6, as stated, fails in two ways. For a text with white space around it the
entry read back is the trimmed text: after `appendMemory(" a ")` on an absent
file it is `"a"`. And an earlier entry is read back as `JSON.stringify` writes
it: on the file content `[1e400]`, read as the entry `Infinity`, the call
`appendMemory("x")` leaves the entries `null` and `"x"`. -/
theorem appendMemory_result_is_trimmed :
    ((loadMemory true none).1.length < 200 ∧ trim " a " ≠ "" ∧
      ∃ f, appendMemory true true (some (.str " a ")) none = .ok f ∧
        (loadMemory true f).1 = [Json.str "a"] ∧
        (loadMemory true f).1 ≠ (loadMemory true none).1 ++ [Json.str " a "]) ∧
    ((loadMemory true
        (some (.content (.value (.arr [.num (.infinity false)]))))).1.length < 200 ∧
      trim "x" ≠ "" ∧
      ∃ f, appendMemory true true (some (.str "x"))
          (some (.content (.value (.arr [.num (.infinity false)])))) = .ok f ∧
        (loadMemory true f).1 = [Json.null, Json.str "x"] ∧
        (loadMemory true f).1 ≠
          (loadMemory true
            (some (.content (.value (.arr [.num (.infinity false)]))))).1 ++
            [Json.str "x"]) := by
  refine ⟨⟨by decide, by decide, _, rfl, rfl, ?_⟩, ⟨by decide, by decide, _, rfl, rfl, ?_⟩⟩
  · show [Json.str "a"] ≠ [] ++ [Json.str " a "]
    simp only [List.nil_append, ne_eq, List.cons.injEq, Json.str.injEq, and_true]
    decide
  · show [Json.null, Json.str "x"] ≠ [Json.num (.infinity false)] ++ [Json.str "x"]
    simp

/-- C6, amended: on a memory store of fewer than 200 entries, after
`appendMemory(x)` with a non-blank text `x` and a successful write, `loadMemory`
reads the previous entries in the same order, each as `JSON.stringify` writes
it and `JSON.parse` reads it back, followed by `x` trimmed; the previous
entries are unchanged when none of them holds an infinity or a negative zero,
as is so for entries that are texts. -/
theorem appendMemory_round_trip (r r2 : Bool) (file : MemFile) (x : String)
    (hroom : (loadMemory r file).1.length < 200) (hx : trim x ≠ "") :
    ∃ f, appendMemory r true (some (.str x)) file = .ok f ∧
      (loadMemory r2 f).1 = (loadMemory r file).1.map Json.reparse ++ [Json.str (trim x)] ∧
      (exactList (loadMemory r file).1 = true →
        (loadMemory r2 f).1 = (loadMemory r file).1 ++ [Json.str (trim x)]) := by
  have hf := appendMemory_text r x file hx
  have hent := appendMemory_text_entries r r2 x file _ hx hf
  have h0 : ((loadMemory r file).1.map Json.reparse ++ [Json.str (trim x)]).length
      - MAX_MEM = 0 := by
    simp only [List.length_append, List.length_map, List.length_singleton, MAX_MEM]
    omega
  rw [h0, List.drop_zero] at hent
  refine ⟨_, hf, hent, fun hexact => ?_⟩
  rw [hent, ← reparseList_eq_map, reparseList_exact _ hexact]

theorem appendMemory_round_trip_witness :
    ∃ f, appendMemory false true (some (.str " likes diamonds\n"))
        (some (.content (.value (.arr [.str "first", .num (.finite "1.5")])))) = .ok f ∧
      (loadMemory true f).1 =
        (loadMemory false
          (some (.content (.value (.arr [.str "first", .num (.finite "1.5")]))))).1.map
            Json.reparse ++ [Json.str (trim " likes diamonds\n")] ∧
      (exactList (loadMemory false
          (some (.content (.value (.arr [.str "first", .num (.finite "1.5")]))))).1 = true →
        (loadMemory true f).1 =
          (loadMemory false
            (some (.content (.value (.arr [.str "first", .num (.finite "1.5")]))))).1 ++
            [Json.str (trim " likes diamonds\n")]) :=
  appendMemory_round_trip false true
    (some (.content (.value (.arr [.str "first", .num (.finite "1.5")]))))
    " likes diamonds\n" (by decide) (by decide)

/-- C7, as stated, fails on an array with an element that is not a text: the
file content `[1]` is read as the one entry `1`. -/
theorem loadMemory_keeps_number_entry :
    (loadMemory true (some (.content (.value (.arr [.num (.finite "1")]))))).1
        = [Json.num (.finite "1")] ∧
      (loadMemory true (some (.content (.value (.arr [.num (.finite "1")]))))).1 ≠ [] ∧
      ∃ x ∈ (loadMemory true (some (.content (.value (.arr [.num (.finite "1")]))))).1,
        ∀ s, x ≠ Json.str s := by
  refine ⟨rfl, ?_, Json.num (.finite "1"), ?_, ?_⟩
  · simp [loadMemory]
  · simp [loadMemory]
  · intro s h
    cases h

/-- C7, amended: `loadMemory` returns the elements of the array, whatever they
are, when the file content parses to a JSON array, and the empty sequence in
every other case: file absent, blank, not parsable, or a JSON value other than
an array. -/
theorem loadMemory_entries (r : Bool) (file : MemFile) :
    (loadMemory r file).1 =
      match file with
      | some (.content (.value (.arr xs))) => xs
      | _ => [] := by
  unfold loadMemory
  cases file with
  | none => rfl
  | some raw =>
    cases raw with
    | blank => rfl
    | content t =>
      cases t with
      | invalid => rfl
      | value v => cases v <;> rfl

/-! ## Prompt: theorems -/

theorem occurrencesIn_pos (pat a b : List Char) :
    1 ≤ occurrencesIn pat (a ++ pat ++ b) := by
  induction a with
  | nil =>
    have hp : pat.isPrefixOf (pat ++ b) = true :=
      List.isPrefixOf_iff_prefix.mpr (List.prefix_append pat b)
    rw [List.nil_append]
    cases hl : pat ++ b with
    | nil =>
      rw [hl] at hp
      simp [occurrencesIn, hp]
    | cons x xs =>
      rw [hl] at hp
      simp [occurrencesIn, hp]
  | cons x a ih =>
    show 1 ≤ occurrencesIn pat (x :: (a ++ pat ++ b))
    unfold occurrencesIn
    omega

theorem splitFirst_of_unique (pat : List Char) (hpat : pat ≠ []) :
    ∀ (s a b : List Char), occurrencesIn pat s = 1 → s = a ++ pat ++ b →
      splitFirst pat s = some (a, b) := by
  intro s
  induction s with
  | nil =>
    intro a b _ hs
    have h := congrArg List.length hs
    simp only [List.length_nil, List.length_append] at h
    have : pat.length = 0 := by omega
    exact absurd (List.length_eq_zero.mp this) hpat
  | cons c cs ih =>
    intro a b hocc hs
    by_cases hp : pat.isPrefixOf (c :: cs) = true
    · simp only [occurrencesIn, hp, if_true] at hocc
      have h0 : occurrencesIn pat cs = 0 := by omega
      cases a with
      | nil =>
        simp only [List.nil_append] at hs
        have hp2 : pat.isPrefixOf (pat ++ b) = true :=
          List.isPrefixOf_iff_prefix.mpr (List.prefix_append pat b)
        simp only [splitFirst, hs, hp2, if_true, List.drop_left]
      | cons x a =>
        simp only [List.cons_append, List.cons.injEq] at hs
        have := occurrencesIn_pos pat a b
        rw [← hs.2] at this
        omega
    · simp only [occurrencesIn, hp, if_false, Nat.zero_add, Bool.false_eq_true] at hocc
      cases a with
      | nil =>
        simp only [List.nil_append] at hs
        exact absurd
          (List.isPrefixOf_iff_prefix.mpr (hs ▸ List.prefix_append pat b)) hp
      | cons x a =>
        simp only [List.cons_append, List.cons.injEq] at hs
        obtain ⟨rfl, hs2⟩ := hs
        have h2 := ih a b hocc hs2
        simp only [splitFirst, hp, if_false, h2, Bool.false_eq_true]

theorem getSubstitution_plain (matched before after : List Char) :
    ∀ r : List Char, '$' ∉ r → getSubstitution matched before after r = r := by
  intro r
  induction r with
  | nil => intro _; rfl
  | cons c r ih =>
    intro h
    have hc : c ≠ '$' := fun e => h (e ▸ List.mem_cons_self _ _)
    have hr : '$' ∉ r := fun e => h (List.mem_cons_of_mem _ e)
    cases r with
    | nil => rfl
    | cons d rest =>
      simp only [getSubstitution, hc, if_false]
      rw [ih hr]

theorem replace_unique (s pat r : String) (a b : List Char) (hpat : pat.data ≠ [])
    (hocc : occurrences pat s = 1) (hs : s.data = a ++ pat.data ++ b) (hr : '$' ∉ r.data) :
    (replace s pat r).data = a ++ r.data ++ b := by
  unfold replace
  rw [splitFirst_of_unique pat.data hpat s.data a b hocc hs]
  simp only [getSubstitution_plain _ _ _ _ hr]

theorem render_data_append (f : Marker → String) (xs ys : List Piece) :
    (render f (xs ++ ys)).data = (render f xs).data ++ (render f ys).data := by
  induction xs with
  | nil => simp [render]
  | cons x xs ih =>
    cases x <;> simp [render, String.data_append, ih]

theorem render_congr (f g : Marker → String) (ps : List Piece)
    (h : ∀ k, Piece.mark k ∈ ps → f k = g k) : render f ps = render g ps := by
  induction ps with
  | nil => rfl
  | cons x xs ih =>
    have ih2 := ih fun k hk => h k (List.mem_cons_of_mem _ hk)
    cases x with
    | lit t => simp only [render, ih2]
    | mark k => simp only [render, ih2, h k (List.mem_cons_self _ _)]

theorem split_of_count_one (p : Piece) (ps : List Piece) (h : ps.count p = 1) :
    ∃ pre post, ps = pre ++ p :: post ∧ p ∉ pre ∧ p ∉ post := by
  induction ps with
  | nil => simp at h
  | cons q qs ih =>
    rw [List.count_cons] at h
    by_cases hq : q = p
    · subst hq
      simp only [beq_self_eq_true, if_true] at h
      have h0 : qs.count q = 0 := by omega
      exact ⟨[], qs, rfl, by simp, List.count_eq_zero.mp h0⟩
    · have hq2 : (q == p) = false := by simpa using hq
      simp only [hq2, Bool.false_eq_true, if_false, Nat.add_zero] at h
      obtain ⟨pre, post, hps, hpre, hpost⟩ := ih h
      refine ⟨q :: pre, post, by rw [hps]; rfl, ?_, hpost⟩
      intro hmem
      rcases List.mem_cons.mp hmem with h1 | h1
      · exact hq h1.symm
      · exact hpre h1

theorem Marker.text_ne_nil (k : Marker) : k.text.data ≠ [] := by
  cases k <;> decide

theorem replace_marker (f : Marker → String) (k : Marker) (ps : List Piece) (r : String)
    (hk : f k = k.text) (hcount : ps.count (.mark k) = 1)
    (hocc : occurrences k.text (render f ps) = 1) (hr : '$' ∉ r.data) :
    replace (render f ps) k.text r = render (Function.update f k r) ps := by
  obtain ⟨pre, post, hps, hpre, hpost⟩ := split_of_count_one _ ps hcount
  have hagree : ∀ qs, Piece.mark k ∉ qs →
      render (Function.update f k r) qs = render f qs := by
    intro qs hq
    apply render_congr
    intro j hj
    have : j ≠ k := by
      rintro rfl
      exact hq hj
    simp [Function.update, this]
  apply String.ext
  have hdata : (render f ps).data =
      (render f pre).data ++ k.text.data ++ (render f post).data := by
    rw [hps, render_data_append]
    simp [render, String.data_append, hk]
  rw [replace_unique _ _ _ _ _ k.text_ne_nil hocc hdata hr]
  rw [hps, render_data_append]
  simp [render, String.data_append, hagree pre hpre, hagree post hpost]

/-- C9 at the message `$&`, and at the memory text `@@@`: the prompt is not
the template with its markers replaced by the texts as they are. A message `$&`
is read by `replace` as the matched text, which puts the marker `@@@` back. And
a memory text `@@@` is put in place, after which the third `replace` hits it
instead of the marker of the template. -/
theorem buildPrompt_not_verbatim :
    (∀ k, sampleTemplate.count (.mark k) = 1) ∧
    (∀ k : Marker, occurrences k.text (templateText sampleTemplate) = 1) ∧
    buildPrompt (templateText sampleTemplate) "c" "m" "$&" = "c|m|@@@" ∧
    fillTemplate sampleTemplate "c" "m" "$&" = "c|m|$&" ∧
    buildPrompt (templateText sampleTemplate) "c" "@@@" "u" = "c|u|@@@" ∧
    fillTemplate sampleTemplate "c" "@@@" "u" = "c|@@@|u" := by
  refine ⟨?_, ?_, by decide, by decide, by decide, by decide⟩
  · intro k
    cases k <;> decide
  · intro k
    cases k <;> decide

/-- Where the prompt is the filled template: for a template that contains each
marker once, and texts `c`, `m`, `u` without a dollar sign, such that
`{{MEMORY}}` still occurs exactly once after `{{CHARACTER}}` has been replaced
and `@@@` still occurs exactly once after `{{MEMORY}}` has been replaced, the
prompt is the template with `{{CHARACTER}}` replaced by `c`, `{{MEMORY}}` by `m`
(by 'Память пуста.' when `m` is empty) and `@@@` by `u`, each inserted as it
is. -/
theorem buildPrompt_fills_template (ps : List Piece) (c m u : String)
    (hps : ∀ k, ps.count (.mark k) = 1)
    (h1 : occurrences "{{CHARACTER}}" (templateText ps) = 1)
    (h2 : occurrences "{{MEMORY}}" (replace (templateText ps) "{{CHARACTER}}" c) = 1)
    (h3 : occurrences "@@@"
      (replace (replace (templateText ps) "{{CHARACTER}}" c) "{{MEMORY}}"
        (if m != "" then m else "Память пуста.")) = 1)
    (hc : '$' ∉ c.data) (hm : '$' ∉ m.data) (hu : '$' ∉ u.data) :
    buildPrompt (templateText ps) c m u =
      fillTemplate ps c (if m != "" then m else "Память пуста.") u := by
  have hm2 : '$' ∉ (if m != "" then m else "Память пуста.").data := by
    split
    · exact hm
    · decide
  unfold buildPrompt
  generalize (if m != "" then m else "Память пуста.") = m2 at h3 hm2 ⊢
  have e1 : replace (templateText ps) "{{CHARACTER}}" c
      = render (Function.update Marker.text .character c) ps :=
    replace_marker Marker.text .character ps c rfl (hps _) h1 hc
  rw [e1] at h2 h3 ⊢
  have e2 : replace (render (Function.update Marker.text .character c) ps) "{{MEMORY}}" m2
      = render (Function.update (Function.update Marker.text .character c) .memory m2) ps :=
    replace_marker _ .memory ps m2 (by simp [Function.update]) (hps _) h2 hm2
  rw [e2] at h3 ⊢
  have e3 : replace
      (render (Function.update (Function.update Marker.text .character c) .memory m2) ps)
      "@@@" u
      = render (Function.update
          (Function.update (Function.update Marker.text .character c) .memory m2)
          .message u) ps :=
    replace_marker _ .message ps u (by simp [Function.update]) (hps _) h3 hu
  rw [e3]
  unfold fillTemplate
  congr 1
  funext k
  cases k <;> simp [Function.update]

theorem buildPrompt_fills_template_witness :
    buildPrompt (templateText sampleTemplate) "gruff miner" "" "mine stone" =
      fillTemplate sampleTemplate "gruff miner"
        (if "" != "" then "" else "Память пуста.") "mine stone" :=
  buildPrompt_fills_template sampleTemplate "gruff miner" "" "mine stone"
    (by intro k; cases k <;> decide) (by decide) (by decide) (by decide)
    (by decide) (by decide) (by decide)

/-! ## Request pipeline: theorems -/

theorem isCodeSafe_text (lower : String → String) (code : JSValue)
    (h : isCodeSafe lower code = true) : ∃ s, code = some (.str s) := by
  match code, h with
  | some (.str s), _ => exact ⟨s, rfl⟩
  | none, h => simp [isCodeSafe, truthy] at h
  | some .null, h => simp [isCodeSafe, truthy] at h
  | some (.bool b), h => simp [isCodeSafe, isString] at h
  | some (.num n), h => simp [isCodeSafe, isString] at h
  | some (.arr xs), h => simp [isCodeSafe, isString] at h
  | some (.obj kvs), h => simp [isCodeSafe, isString] at h

/-- C3: a value `askBot` returns is a text that passes `isCodeSafe`. -/
theorem askBot_returns_safe_text (env : Env) (message : String) (st st2 : Run) (c : JSValue)
    (h : askBot env message st = (.ok c, st2)) :
    (∃ s, c = some (.str s)) ∧ isCodeSafe env.lower c = true := by
  have hsafe : isCodeSafe env.lower c = true := by
    unfold askBot at h
    simp only at h
    split at h
    · simp at h
    · split at h
      · simp at h
      · split at h
        · simp at h
        · split at h
          · simp at h
          · split at h
            · simp at h
            · split at h
              · simp at h
              · split at h
                · simp at h
                · rename_i hs
                  simp only [Bool.not_eq_true', Bool.not_eq_false] at hs
                  split at h
                  · simp at h
                  · split at h
                    · split at h
                      · simp only [Prod.mk.injEq, Except.ok.injEq] at h
                        rw [← h.1]
                        exact hs
                      · simp at h
                    · simp only [Prod.mk.injEq, Except.ok.injEq] at h
                      rw [← h.1]
                      exact hs
  exact ⟨isCodeSafe_text env.lower c hsafe, hsafe⟩

theorem askBot_returns_safe_text_witness :
    (∃ s, some (Json.str "bot.chat(1)") = some (.str s)) ∧
      isCodeSafe asciiLower (some (.str "bot.chat(1)")) = true :=
  askBot_returns_safe_text (sampleEnv (.value (.obj [("code", .str "bot.chat(1)")]))) "hi"
    ⟨none, []⟩
    ⟨none, [.modelCall "friendly|Память пуста.|hi", .parse,
      .safetyCheck (some (.str "bot.chat(1)")) true]⟩
    (some (.str "bot.chat(1)")) rfl

/-- C4: when the `code` of the parsed response fails `isCodeSafe`, `askBot`
throws, `appendMemory` is not reached, and `loadMemory` reads the same entries
after the request as before it, whatever `memory` the response carries. -/
theorem askBot_unsafe_code_keeps_memory (env : Env) (message : String) (st : Run)
    (parsed : Json)
    (hm : env.model (promptFor env message st.file) = some (.value parsed))
    (hc : ∀ code, getProp parsed "code" = .ok code → isCodeSafe env.lower code = false) :
    ∃ e st2, askBot env message st = (.error e, st2) ∧
      (∃ new, st2.trace = st.trace ++ new ∧ ∀ m result, Event.memoryUpdate m result ∉ new) ∧
      ∀ r r2, (loadMemory r st2.file).1 = (loadMemory r2 st.file).1 := by
  have hfile : ∀ r r2, (loadMemory r (getMemoryString env.renameOk st.file).2).1
      = (loadMemory r2 st.file).1 := by
    intro r r2
    rw [getMemoryString_file]
    exact loadMemory_after_load r env.renameOk r2 st.file
  unfold promptFor at hm
  unfold askBot
  cases hg : getMemoryString env.renameOk st.file with
  | mk res file1 =>
    rw [hg] at hm hfile
    simp only at hm hfile
    cases res with
    | error e => exact ⟨_, _, rfl, ⟨[], by simp, by simp⟩, hfile⟩
    | ok memoryText =>
      simp only at hm ⊢
      split
      · exact ⟨_, _, rfl, ⟨[], by simp, by simp⟩, hfile⟩
      · rw [hm]
        simp only
        cases hp : getProp parsed "code" with
        | error e => exact ⟨_, _, rfl, ⟨_, rfl, by simp⟩, hfile⟩
        | ok code =>
          simp only
          split
          · exact ⟨_, _, rfl, ⟨_, rfl, by simp⟩, hfile⟩
          · rw [hc code hp]
            exact ⟨_, _, rfl, ⟨_, by simp only [List.append_assoc]; rfl, by simp⟩, hfile⟩

theorem askBot_unsafe_code_keeps_memory_witness :
    ∃ e st2,
      askBot (sampleEnv (.value (.obj [("code", .str "require('fs').unlinkSync('x')"),
          ("memory", .str "note")]))) "hi"
        ⟨some (.content (.value (.arr [.str "old"]))), []⟩ = (.error e, st2) ∧
      (∃ new, st2.trace = [] ++ new ∧ ∀ m result, Event.memoryUpdate m result ∉ new) ∧
      ∀ r r2, (loadMemory r st2.file).1 =
        (loadMemory r2 (some (.content (.value (.arr [.str "old"]))))).1 :=
  askBot_unsafe_code_keeps_memory
    (sampleEnv (.value (.obj [("code", .str "require('fs').unlinkSync('x')"),
      ("memory", .str "note")]))) "hi"
    ⟨some (.content (.value (.arr [.str "old"]))), []⟩ _ rfl
    (by
      intro code h
      have : code = some (.str "require('fs').unlinkSync('x')") := by
        simpa [getProp, lookupKey] using h.symm
      subst this
      decide)

theorem askBot_invalid_response (env : Env) (message : String) (st : Run)
    (memoryText : String)
    (hmem : (getMemoryString env.renameOk st.file).1 = .ok memoryText)
    (hkey : env.OPENAI_API_KEY.getD "" ≠ "")
    (hm : env.model (promptFor env message st.file) = some .invalid) :
    (askBot env message st).1 = .error .malformedResponse := by
  unfold promptFor at hm
  unfold askBot
  cases hg : getMemoryString env.renameOk st.file with
  | mk res file1 =>
    rw [hg] at hm hmem
    simp only at hmem
    subst hmem
    simp only at hm ⊢
    simp only [beq_iff_eq, hkey, if_false, hm]

theorem askBot_without_code (env : Env) (message : String) (st : Run) (parsed : Json)
    (memoryText : String)
    (hmem : (getMemoryString env.renameOk st.file).1 = .ok memoryText)
    (hkey : env.OPENAI_API_KEY.getD "" ≠ "")
    (hm : env.model (promptFor env message st.file) = some (.value parsed))
    (hc : getProp parsed "code" = .ok none) :
    (askBot env message st).1 = .error .missingCode := by
  unfold promptFor at hm
  unfold askBot
  cases hg : getMemoryString env.renameOk st.file with
  | mk res file1 =>
    rw [hg] at hm hmem
    simp only at hmem
    subst hmem
    simp only at hm ⊢
    simp only [beq_iff_eq, hkey, if_false, hm, hc, truthy]
    rfl

/-- C8 at the response text `null`: `JSON.parse` reads the value `null`, the
property read `parsed.code` throws a `TypeError`, and `askBot` ends with that
error, not with the missing-code error. -/
theorem askBot_null_response (env : Env) (message : String) (st : Run)
    (hkey : env.OPENAI_API_KEY.getD "" ≠ "")
    (hm : env.model (promptFor env message st.file) = some (.value .null)) :
    (askBot env message st).1 = .error .typeError ∧
      (askBot env message st).1 ≠ .error .missingCode := by
  have h : (askBot env message st).1 = .error .typeError := by
    unfold promptFor at hm
    unfold askBot
    cases hg : getMemoryString env.renameOk st.file with
    | mk res file1 =>
      rw [hg] at hm
      cases res with
      | error e =>
        have he : e = Failure.typeError := by
          have h2 := congrArg Prod.fst hg
          unfold getMemoryString at h2
          simp only at h2
          split at h2
          · simp at h2
          · split at h2
            · simp at h2
            · simpa using h2.symm
        rw [he]
      | ok memoryText =>
        simp only at hm ⊢
        simp only [beq_iff_eq, hkey, if_false, hm, getProp]
  rw [h]
  exact ⟨rfl, by simp⟩

theorem askBot_null_response_witness :
    (askBot (sampleEnv (.value .null)) "hi" ⟨none, []⟩).1 = .error .typeError ∧
      (askBot (sampleEnv (.value .null)) "hi" ⟨none, []⟩).1 ≠ .error .missingCode :=
  askBot_null_response (sampleEnv (.value .null)) "hi" ⟨none, []⟩ (by decide) rfl

/-! ## Chat handler: theorems -/

theorem askBot_trace (env : Env) (message : String) (st : Run) :
    ∃ new, (askBot env message st).2.trace = st.trace ++ new ∧
      (new.map Event.stage).Pairwise (· < ·) ∧ (∀ e ∈ new, e.stage ≤ 3) ∧
      (∀ m result, Event.memoryUpdate m result ∈ new →
        result = appendMemory env.renameOk env.writeOk m (loadMemory env.renameOk st.file).2 ∧
        ∃ c, Event.safetyCheck c true ∈ new ∧ isCodeSafe env.lower c = true) ∧
      (∀ c, (askBot env message st).1 = .ok c →
        Event.safetyCheck c true ∈ new ∧ isCodeSafe env.lower c = true ∧
        (∀ m result, Event.memoryUpdate m result ∈ new →
          result = .ok (askBot env message st).2.file) ∧
        ((∀ m result, Event.memoryUpdate m result ∉ new) →
          (askBot env message st).2.file = (loadMemory env.renameOk st.file).2)) := by
  have hfile := getMemoryString_file env.renameOk st.file
  unfold askBot
  cases hg : getMemoryString env.renameOk st.file with
  | mk res file1 =>
    rw [hg] at hfile
    simp only at hfile
    subst hfile
    cases res with
    | error e => exact ⟨[], by simp, by simp, by simp, by simp, by simp⟩
    | ok memoryText =>
      simp only
      split
      · exact ⟨[], by simp, by simp, by simp, by simp, by simp⟩
      · split
        · exact ⟨_, rfl, by simp [Event.stage], by simp [Event.stage], by simp, by simp⟩
        · split
          · exact ⟨_, rfl, by simp [Event.stage], by simp [Event.stage], by simp, by simp⟩
          · split
            · exact ⟨_, rfl, by simp [Event.stage], by simp [Event.stage], by simp, by simp⟩
            · split
              · exact ⟨_, rfl, by simp [Event.stage], by simp [Event.stage], by simp, by simp⟩
              · split
                · exact ⟨_, by simp only [List.append_assoc]; rfl, by simp [Event.stage],
                    by simp [Event.stage], by simp, by simp⟩
                · rename_i hsafe
                  simp only [Bool.not_eq_true', Bool.not_eq_false] at hsafe
                  rw [hsafe]
                  split
                  · exact ⟨_, by simp only [List.append_assoc]; rfl, by simp [Event.stage],
                      by simp [Event.stage], by simp, by simp⟩
                  · split
                    · split
                      · rename_i hres
                        refine ⟨_, by simp only [List.append_assoc]; rfl, by simp [Event.stage],
                          by simp [Event.stage], ?_, ?_⟩
                        · intro m result hmem
                          simp at hmem
                          exact ⟨by rw [hmem.1, hmem.2], _,
                            List.mem_append_right _
                              (List.mem_append_left _ (List.mem_singleton_self _)), hsafe⟩
                        · intro c hc
                          simp only [Except.ok.injEq] at hc
                          subst hc
                          refine ⟨by simp, hsafe, ?_, ?_⟩
                          · intro m result hmem
                            simp at hmem
                            rw [hmem.2, hres]
                          · intro hno
                            exact absurd
                              (List.mem_append_right _
                                (List.mem_append_right _ (List.mem_singleton_self _)))
                              (hno _ _)
                      · rename_i hres
                        refine ⟨_, by simp only [List.append_assoc]; rfl, by simp [Event.stage],
                          by simp [Event.stage], ?_, by simp⟩
                        intro m result hmem
                        simp at hmem
                        exact ⟨by rw [hmem.1, hmem.2], _,
                            List.mem_append_right _
                              (List.mem_append_left _ (List.mem_singleton_self _)), hsafe⟩
                    · refine ⟨_, by simp only [List.append_assoc]; rfl, by simp [Event.stage],
                        by simp [Event.stage], by simp, ?_⟩
                      intro c hc
                      simp only [Except.ok.injEq] at hc
                      subst hc
                      exact ⟨by simp, hsafe, by simp, fun _ => rfl⟩

theorem memoryUpdate_mem_append (new tail : List Event) (m : JSValue)
    (result : Except Failure MemFile) (htail : ∀ e ∈ tail, 4 ≤ e.stage) :
    Event.memoryUpdate m result ∈ new ++ tail ↔ Event.memoryUpdate m result ∈ new := by
  constructor
  · intro h
    rcases List.mem_append.mp h with h | h
    · exact h
    · have := htail _ h
      simp [Event.stage] at this
  · exact List.mem_append_left _

theorem execute_not_mem (new : List Event) (c : String) (f : MemFile)
    (hle : ∀ e ∈ new, e.stage ≤ 3) : Event.execute c f ∉ new := by
  intro h
  have := hle _ h
  simp [Event.stage] at this

theorem stages_append (new tail : List Event)
    (h1 : (new.map Event.stage).Pairwise (· < ·)) (h2 : ∀ e ∈ new, e.stage ≤ 3)
    (h3 : (tail.map Event.stage).Pairwise (· < ·)) (h4 : ∀ e ∈ tail, 4 ≤ e.stage) :
    ((new ++ tail).map Event.stage).Pairwise (· < ·) := by
  rw [List.map_append, List.pairwise_append]
  refine ⟨h1, h3, ?_⟩
  intro a ha b hb
  obtain ⟨e, he, rfl⟩ := List.mem_map.mp ha
  obtain ⟨f, hf, rfl⟩ := List.mem_map.mp hb
  have := h2 e he
  have := h4 f hf
  omega

/-- The handler on a request that `askBot` answers with the text `c`: `eval`
is called on `c` with the memory file as `askBot` left it. -/
theorem onChat_ok (env : Env) (username message c : String) (st st1 : Run)
    (h1 : (username == env.botUsername) = false) (h2 : (username != env.PLAYERNAME) = false)
    (hres : askBot env message st = (.ok (some (.str c)), st1)) :
    (onChat env username message st).file = (env.evalCode c st1.file).1 ∧
      ∃ tail, (onChat env username message st).trace =
          st1.trace ++ Event.execute c st1.file :: tail ∧
        (tail = [] ∨ tail = [.report .execution]) := by
  cases hev : env.evalCode c st1.file with
  | mk file2 ending =>
    unfold onChat
    simp only [h1, h2, hres, hev, Bool.false_eq_true, if_false]
    cases ending with
    | threw => exact ⟨rfl, [.report .execution], by simp, Or.inr rfl⟩
    | returned => exact ⟨rfl, [], by simp, Or.inl rfl⟩
    | threwNullish => exact ⟨rfl, [], by simp, Or.inl rfl⟩

theorem onChat_error (env : Env) (username message : String) (st st1 : Run) (err : Failure)
    (h1 : (username == env.botUsername) = false) (h2 : (username != env.PLAYERNAME) = false)
    (hres : askBot env message st = (.error err, st1)) :
    (onChat env username message st).trace = st1.trace ++ [.report err] := by
  unfold onChat
  simp only [h1, h2, hres, Bool.false_eq_true, if_false]

/-- C10, as stated, fails: in a request whose response carries a `memory`
field, `appendMemory` runs inside `askBot`, before the handler reaches `eval`;
the memory file already holds the new entry when `eval` begins. -/
theorem onChat_memory_update_precedes_execute :
    (onChat (sampleEnv (.value (.obj [("code", .str "bot.dig(block)"),
        ("memory", .str "player asked to mine stone")]))) "Player" "mine stone"
        ⟨none, []⟩).trace =
      [.modelCall "friendly|Память пуста.|mine stone", .parse,
          .safetyCheck (some (.str "bot.dig(block)")) true] ++
        .memoryUpdate (some (.str "player asked to mine stone"))
            (.ok (some (.content (.value (.arr [.str "player asked to mine stone"]))))) ::
          [.execute "bot.dig(block)"
            (some (.content (.value (.arr [.str "player asked to mine stone"]))))] ∧
    (∀ c f, Event.execute c f ∉
      [Event.modelCall "friendly|Память пуста.|mine stone", .parse,
        .safetyCheck (some (.str "bot.dig(block)")) true]) ∧
    (askBot (sampleEnv (.value (.obj [("code", .str "bot.dig(block)"),
        ("memory", .str "player asked to mine stone")]))) "mine stone"
        ⟨none, []⟩).2.file =
      some (.content (.value (.arr [.str "player asked to mine stone"]))) := by
  refine ⟨rfl, ?_, rfl⟩
  intro c f
  simp

/-- C10, amended: in the handling of one chat event the stages run in the order
parse, safety check, memory update, execute, each reached at most once.
`appendMemory` is called on the `memory` of the response, on the memory file as
the first `loadMemory` left it, after the safety check has passed. `eval` is
called only on a text that the safety check has passed, and the memory file it
begins with is the one that call of `appendMemory` returned, or the one the
first `loadMemory` left when there was no such call; the handler leaves the
memory file as `eval` leaves it. After `eval` the handler does nothing but
report an error. -/
theorem onChat_stage_order (env : Env) (username message : String) (st : Run) :
    ∃ new, (onChat env username message st).trace = st.trace ++ new ∧
      (new.map Event.stage).Pairwise (· < ·) ∧
      (∀ m result, Event.memoryUpdate m result ∈ new →
        result = appendMemory env.renameOk env.writeOk m (loadMemory env.renameOk st.file).2 ∧
        ∃ c, Event.safetyCheck c true ∈ new ∧ isCodeSafe env.lower c = true) ∧
      (∀ c f, Event.execute c f ∈ new →
        Event.safetyCheck (some (.str c)) true ∈ new ∧
        isCodeSafe env.lower (some (.str c)) = true ∧
        (∀ m result, Event.memoryUpdate m result ∈ new → result = .ok f) ∧
        ((∀ m result, Event.memoryUpdate m result ∉ new) →
          f = (loadMemory env.renameOk st.file).2) ∧
        (onChat env username message st).file = (env.evalCode c f).1) := by
  by_cases h1 : (username == env.botUsername) = true
  · refine ⟨[], ?_, by simp, by simp, by simp⟩
    unfold onChat
    simp [h1]
  by_cases h2 : (username != env.PLAYERNAME) = true
  · refine ⟨[], ?_, by simp, by simp, by simp⟩
    unfold onChat
    simp [h2]
  simp only [Bool.not_eq_true] at h1 h2
  obtain ⟨new, hnew, hsorted, hle, hmu, hok⟩ := askBot_trace env message st
  cases hres : askBot env message st with
  | mk res st1 =>
    rw [hres] at hnew hok
    simp only at hnew hok
    cases res with
    | error err =>
      have htail : ∀ e ∈ [Event.report err], 4 ≤ e.stage := by simp [Event.stage]
      refine ⟨new ++ [.report err], ?_, ?_, ?_, ?_⟩
      · rw [onChat_error env username message st st1 err h1 h2 hres, hnew, List.append_assoc]
      · exact stages_append _ _ hsorted hle (by simp [Event.stage]) htail
      · intro m result hmem
        rw [memoryUpdate_mem_append _ _ _ _ htail] at hmem
        obtain ⟨hr, c, hc, hs⟩ := hmu m result hmem
        exact ⟨hr, c, List.mem_append_left _ hc, hs⟩
      · intro c f hmem
        rcases List.mem_append.mp hmem with h | h
        · exact absurd h (execute_not_mem new c f hle)
        · simp at h
    | ok code =>
      obtain ⟨hsc, hsafe, hupd, hnoupd⟩ := hok code rfl
      obtain ⟨c, rfl⟩ := isCodeSafe_text env.lower code hsafe
      obtain ⟨hfile, tail, htrace, htl⟩ := onChat_ok env username message c st st1 h1 h2 hres
      have htail : ∀ e ∈ Event.execute c st1.file :: tail, 4 ≤ e.stage := by
        rcases htl with rfl | rfl <;> simp [Event.stage]
      refine ⟨new ++ Event.execute c st1.file :: tail, ?_, ?_, ?_, ?_⟩
      · rw [htrace, hnew, List.append_assoc]
      · refine stages_append _ _ hsorted hle ?_ htail
        rcases htl with rfl | rfl <;> simp [Event.stage]
      · intro m result hmem
        rw [memoryUpdate_mem_append _ _ _ _ htail] at hmem
        obtain ⟨hr, d, hd, hs⟩ := hmu m result hmem
        exact ⟨hr, d, List.mem_append_left _ hd, hs⟩
      · intro d f hmem
        have hdf : d = c ∧ f = st1.file := by
          rcases List.mem_append.mp hmem with h | h
          · exact absurd h (execute_not_mem new d f hle)
          · rcases htl with rfl | rfl <;> simpa using h
        obtain ⟨rfl, rfl⟩ := hdf
        refine ⟨List.mem_append_left _ hsc, hsafe, ?_, ?_, hfile⟩
        · intro m result hm
          rw [memoryUpdate_mem_append _ _ _ _ htail] at hm
          exact hupd m result hm
        · intro hno
          apply hnoupd
          intro m result hm
          exact hno m result (List.mem_append_left _ hm)

end MinecraftGPTbot
